import Mathlib

/-!
Chat text renderer and stock selection of the financial chatbot front end

A shallow embedding of `frontend/js/ui-components.js` (`addMessage`,
`convertMarkdownTables`, `convertMarkdownLists`) and of the selection handlers of
`frontend/js/app.js` (`handleStockItemClick`, `clearSelection`).

JavaScript strings are modelled as lists of characters.  Every character the code
inspects (`'\n'`, `'|'`, `'-'`, `'*'`, `' '` and the white space removed by `trim`)
is a single UTF-16 code unit, so splitting, trimming and searching act on a list of
characters exactly as they act on the code units of the string.
-/

namespace Finnn

/-- A JavaScript string. -/
abbrev Str := List Char

/-! ## String primitives -/

/-- White space and line terminators, the characters `String.prototype.trim` removes. -/
def isWhiteSpace (c : Char) : Bool :=
  c.val = 0x09 || c.val = 0x0A || c.val = 0x0B || c.val = 0x0C || c.val = 0x0D ||
  c.val = 0x20 || c.val = 0xA0 || c.val = 0x1680 ||
  (0x2000 ≤ c.val && c.val ≤ 0x200A) ||
  c.val = 0x2028 || c.val = 0x2029 || c.val = 0x202F || c.val = 0x205F ||
  c.val = 0x3000 || c.val = 0xFEFF

/-- Model of `s.trim()`: white space removed from both ends. -/
def trim (s : Str) : Str :=
  ((s.dropWhile isWhiteSpace).reverse.dropWhile isWhiteSpace).reverse

/-- Model of `s.startsWith(p)`. -/
def startsWith (s p : Str) : Bool :=
  p.isPrefixOf s

/-- Model of `s.endsWith(p)`. -/
def endsWith (s p : Str) : Bool :=
  p.reverse.isPrefixOf s.reverse

/-- Model of `s.includes(p)`: `p` occurs somewhere in `s`. -/
def includes : Str → Str → Bool
  | [], p => startsWith [] p
  | c :: cs, p => startsWith (c :: cs) p || includes cs p

/-- Model of `s.split(sep)` for a one-character separator; the empty string gives `[""]`. -/
def split (sep : Char) : Str → List Str
  | [] => [[]]
  | c :: cs =>
    if c = sep then [] :: split sep cs
    else
      match split sep cs with
      | [] => [[c]]
      | l :: ls => (c :: l) :: ls

/-- Model of `parts.join(sep)` for a one-character separator. -/
def join (sep : Char) : List Str → Str
  | [] => []
  | [l] => l
  | l :: l' :: ls => l ++ sep :: join sep (l' :: ls)

/-- Model of `xs.slice(1, -1)`: the first and the last element dropped. -/
def slice1 (xs : List Str) : List Str :=
  (xs.drop 1).dropLast

/-- Model of `lines.indexOf(line)`: the first index holding `line`; `none` stands for `-1`. -/
def indexOf : List Str → Str → Option Nat
  | [], _ => none
  | l :: ls, line =>
    if l = line then some 0
    else
      match indexOf ls line with
      | none => none
      | some k => some (k + 1)

/-- Model of `text.replace(/\n/g, '<br>')`. -/
def replaceNewlines : Str → Str
  | [] => []
  | c :: cs => if c = '\n' then "<br>".toList ++ replaceNewlines cs else c :: replaceNewlines cs

/-! ## convertMarkdownTables -/

/-- A way in which the JavaScript would leave the domain of the model. -/
inductive Fault where
  /-- `nextLine` is `undefined` and `nextLine.includes` throws a `TypeError`. -/
  | readOutOfBounds
  /-- The write `lines[nextLineIndex] = ''` lands past the end and grows the array. -/
  | writeOutOfBounds
  /-- The loop did not finish within the number of iterations allotted. -/
  | outOfFuel
  deriving DecidableEq, Repr

/-- The variables of `convertMarkdownTables` while its loop runs; `pos` is the position of
the array iterator of `for (let line of lines)`. -/
structure TableState where
  lines : List Str
  pos : Nat
  inTable : Bool
  tableHTML : Str
  result : List Str
  deriving DecidableEq, Repr

/-- The test `line.trim().startsWith('|') && line.trim().endsWith('|')`. -/
def isTableRow (line : Str) : Bool :=
  startsWith (trim line) ['|'] && endsWith (trim line) ['|']

/-- The test `nextLine.includes('|') && nextLine.replace(/\|/g, '').trim().replace(/[^-]/g, '') === ''`:
the pipes are removed, the rest is trimmed, every character other than a dash is removed,
and what is left is compared with the empty string. -/
def separatorTest (nextLine : Str) : Bool :=
  includes nextLine ['|'] &&
    ((trim (nextLine.filter (fun c => c ≠ '|'))).filter (fun c => c = '-')) = []

/-- The index `lines.indexOf(line) + 1`; `indexOf` answering `-1` gives `0`. -/
def nextLineIndex (lines : List Str) (line : Str) : Nat :=
  match indexOf lines line with
  | none => 0
  | some k => k + 1

/-- The value of `isHeader` after the look-ahead of lines 63 to 70. -/
def headerCheck (lines : List Str) (line : Str) : Except Fault Bool :=
  if nextLineIndex lines line < lines.length then
    match lines.get? (nextLineIndex lines line) with
    | none => .error .readOutOfBounds
    | some nextLine => .ok (separatorTest nextLine)
  else .ok false

/-- The markup of one row: `<tr>`, one `<th>` or `<td>` for each cell, `</tr>`. -/
def rowHTML (line : Str) (isHeader : Bool) : Str :=
  "<tr>".toList ++
    (slice1 (split '|' line)).flatMap (fun cell =>
      if isHeader then "<th>".toList ++ trim cell ++ "</th>".toList
      else "<td>".toList ++ trim cell ++ "</td>".toList) ++
    "</tr>".toList

/-- The write `lines[nextLineIndex] = ''`. -/
def blankLine (lines : List Str) (k : Nat) : Except Fault (List Str) :=
  if k < lines.length then .ok (lines.set k []) else .error .writeOutOfBounds

/-- One run of the loop body on the current `line`. -/
def tableBody (st : TableState) (line : Str) : Except Fault TableState :=
  if isTableRow line then
    let opened : Str := if !st.inTable then "<table>".toList else st.tableHTML
    match headerCheck st.lines line with
    | .error e => .error e
    | .ok isHeader =>
      let html := opened ++ rowHTML line isHeader
      if isHeader then
        match blankLine st.lines (nextLineIndex st.lines line) with
        | .error e => .error e
        | .ok lines' =>
          .ok { st with lines := lines', inTable := true, tableHTML := html }
      else
        .ok { st with inTable := true, tableHTML := html }
  else
    if st.inTable then
      .ok { st with inTable := false, tableHTML := st.tableHTML ++ "</table>".toList,
                    result := st.result ++ [st.tableHTML ++ "</table>".toList] }
    else
      .ok { st with result := st.result ++ [line] }

/-- The loop `for (let line of lines)`: while the iterator position is inside the array the
body runs on the element found there and the position advances. -/
def tableLoop : Nat → TableState → Except Fault TableState
  | fuel, st =>
    match st.lines.get? st.pos with
    | none => .ok st
    | some line =>
      match fuel with
      | 0 => .error .outOfFuel
      | fuel' + 1 =>
        match tableBody st line with
        | .error e => .error e
        | .ok st' => tableLoop fuel' { st' with pos := st'.pos + 1 }

/-- The state in which the loop of `convertMarkdownTables` starts. -/
def tableInit (text : Str) : TableState :=
  { lines := split '\n' text, pos := 0, inTable := false,
    tableHTML := "<table>".toList, result := [] }

/-- Lines 96 to 102: a table still open is closed, and the blocks are joined. -/
def tableFinish (st : TableState) : Str :=
  join '\n' (if st.inTable then st.result ++ [st.tableHTML ++ "</table>".toList] else st.result)

/-- Model of `convertMarkdownTables(text)`. -/
def convertMarkdownTables (text : Str) : Except Fault Str :=
  if !includes text ['|'] then .ok text
  else
    match tableLoop (split '\n' text).length (tableInit text) with
    | .error e => .error e
    | .ok st => .ok (tableFinish st)

/-! ## convertMarkdownLists -/

/-- The variables of `convertMarkdownLists` while its loop runs. -/
structure ListState where
  inList : Bool
  listHTML : Str
  result : List Str
  deriving DecidableEq, Repr

/-- The test `line.trim().startsWith('- ') || line.trim().startsWith('* ')`. -/
def isListLine (line : Str) : Bool :=
  startsWith (trim line) "- ".toList || startsWith (trim line) "* ".toList

/-- The item text `line.trim().substring(2)`. -/
def listContent (line : Str) : Str :=
  (trim line).drop 2

/-- One run of the loop body of `convertMarkdownLists` on `line`. -/
def listBody (st : ListState) (line : Str) : ListState :=
  if isListLine line then
    let opened : Str := if !st.inList then "<ul>".toList else st.listHTML
    { st with inList := true,
              listHTML := opened ++ ("<li>".toList ++ listContent line ++ "</li>".toList) }
  else
    if st.inList then
      { inList := false, listHTML := st.listHTML ++ "</ul>".toList,
        result := (st.result ++ [st.listHTML ++ "</ul>".toList]) ++ [line] }
    else
      { st with result := st.result ++ [line] }

/-- The state in which the loop of `convertMarkdownLists` starts. -/
def listInit : ListState :=
  { inList := false, listHTML := "<ul>".toList, result := [] }

/-- Lines 141 to 147: a list still open is closed, and the blocks are joined. -/
def listFinish (st : ListState) : Str :=
  join '\n' (if st.inList then st.result ++ [st.listHTML ++ "</ul>".toList] else st.result)

/-- Model of `convertMarkdownLists(text)`; the array `lines` is never written, so the loop
is a left fold of the body over it. -/
def convertMarkdownLists (text : Str) : Str :=
  if !includes text "- ".toList && !includes text "* ".toList then text
  else listFinish ((split '\n' text).foldl listBody listInit)

/-! ## addMessage -/

/-- Model of `addMessage(text, isUser)`: the value assigned to `messageEl.innerHTML`. -/
def addMessage (text : Str) (isUser : Bool) : Except Fault Str :=
  if !isUser then
    match convertMarkdownTables text with
    | .error e => .error e
    | .ok tables => .ok (replaceNewlines (convertMarkdownLists tables))
  else .ok text

/-! ## Stock selection (`app.js`) -/

/-- A stock as the API lists it: `{symbol, name}`. -/
structure Stock where
  symbol : Str
  name : Str
  deriving DecidableEq, Repr

/-- A `.stock-item` element: its `dataset.symbol` and whether its class list holds `selected`. -/
structure StockItem where
  symbol : Str
  selected : Bool
  deriving DecidableEq, Repr

/-- The page state the selection handlers read and write: the children of `#stockList` and the
global `selectedStocks`. -/
structure AppState where
  stockList : List StockItem
  selectedStocks : List Str
  deriving DecidableEq, Repr

/-- Model of `createStockList(stocks, clickHandler)`: one unselected item for each stock. -/
def createStockList (stocks : List Stock) : List StockItem :=
  stocks.map (fun stock => { symbol := stock.symbol, selected := false })

/-- Model of `handleStockItemClick(event)` for a click on the item at position `k`. -/
def handleStockItemClick (st : AppState) (k : Nat) : AppState :=
  match st.stockList.get? k with
  | none => st
  | some stockItem =>
    if stockItem.selected then
      { stockList := st.stockList.set k { stockItem with selected := false },
        selectedStocks := st.selectedStocks.filter (fun s => s ≠ stockItem.symbol) }
    else
      { stockList := st.stockList.set k { stockItem with selected := true },
        selectedStocks := st.selectedStocks ++ [stockItem.symbol] }

/-- Model of `clearStockSelection()`: `selected` is removed from every item. -/
def clearStockSelection (items : List StockItem) : List StockItem :=
  items.map (fun item => { item with selected := false })

/-- Model of `clearSelection()`. -/
def clearSelection (st : AppState) : AppState :=
  { stockList := clearStockSelection st.stockList, selectedStocks := [] }

/-- A user action on the selection: a click on the stock item at a position, or a click on
the clear button. -/
inductive UiEvent where
  | click (k : Nat)
  | clear
  deriving DecidableEq, Repr

/-- The handler bound to an action. -/
def handleEvent (st : AppState) : UiEvent → AppState
  | .click k => handleStockItemClick st k
  | .clear => clearSelection st

/-- The page after `loadStocks`: the items created, nothing selected. -/
def initialState (stocks : List Stock) : AppState :=
  { stockList := createStockList stocks, selectedStocks := [] }

/-- The page after a sequence of actions, starting from the empty selection. -/
def runEvents (stocks : List Stock) (events : List UiEvent) : AppState :=
  events.foldl handleEvent (initialState stocks)

/-! ## The list rendering as the specification words it -/

/-- The list block for a run of list lines: `<ul>`, one `<li>` item for each line of the run in
order, `</ul>`; an item is the trimmed line without its two-character marker. -/
def specListBlock (run : List Str) : Str :=
  "<ul>".toList ++
    run.flatMap (fun line => "<li>".toList ++ (trim line).drop 2 ++ "</li>".toList) ++
    "</ul>".toList

/-- The lines after list conversion: every maximal run of consecutive lines that, after
trimming, start with `"- "` or `"* "` is replaced by its list block, and every other line is
kept. -/
def specLists : List Str → List Str
  | [] => []
  | line :: rest =>
    if startsWith (trim line) "- ".toList || startsWith (trim line) "* ".toList then
      specListBlock (line :: rest.takeWhile isListLine) ::
        specLists (rest.dropWhile isListLine)
    else line :: specLists rest
termination_by lines => lines.length
decreasing_by
  · simp only [List.length_cons]
    exact Nat.lt_succ_of_le (List.dropWhile_sublist _).length_le
  · simp

/-! ## The states of the table loop -/

/-- The states the loop of `convertMarkdownTables` passes through on `text`: the state it
starts in, and the state after each run of the body on the line under the iterator. -/
inductive TableReach (text : Str) : TableState → Prop where
  | start : TableReach text (tableInit text)
  | next (st st' : TableState) (line : Str) :
      TableReach text st → st.lines.get? st.pos = some line → tableBody st line = .ok st' →
      TableReach text { st' with pos := st'.pos + 1 }

/-! ## The selection invariant -/

/-- The selection invariant: no symbol twice, and the symbol of an item not marked selected
is not in the selection. -/
def SelectionInv (st : AppState) : Prop :=
  st.selectedStocks.Nodup ∧
    ∀ j item, st.stockList.get? j = some item → item.selected = false →
      item.symbol ∉ st.selectedStocks

/-! ## Lemmas on the string primitives -/

theorem split_ne_nil (sep : Char) (s : Str) : split sep s ≠ [] := by
  cases s with
  | nil => simp [split]
  | cons c cs =>
    unfold split
    split_ifs
    · simp
    · split <;> simp

theorem join_cons_cons (sep c : Char) (l : Str) (ls : List Str) :
    join sep ((c :: l) :: ls) = c :: join sep (l :: ls) := by
  cases ls <;> simp [join]

theorem join_split (sep : Char) (s : Str) : join sep (split sep s) = s := by
  induction s with
  | nil => simp [split, join]
  | cons c cs ih =>
    unfold split
    split_ifs with h
    · obtain ⟨l, ls, hl⟩ := List.exists_cons_of_ne_nil (split_ne_nil sep cs)
      rw [hl] at ih ⊢
      simp [join, ih, h]
    · obtain ⟨l, ls, hl⟩ := List.exists_cons_of_ne_nil (split_ne_nil sep cs)
      rw [hl] at ih ⊢
      simp only [join_cons_cons, ih]

theorem startsWith_iff (s p : Str) : startsWith s p = true ↔ p <+: s := by
  simp [startsWith]

theorem includes_iff (s p : Str) : includes s p = true ↔ p <:+: s := by
  induction s with
  | nil =>
    simp [includes, startsWith_iff]
  | cons c cs ih =>
    simp only [includes, Bool.or_eq_true, startsWith_iff, ih]
    constructor
    · rintro (h | h)
      · exact h.isInfix
      · exact h.trans (List.suffix_cons c cs).isInfix
    · intro h
      rcases List.infix_cons_iff.mp h with h | h
      · exact Or.inl h
      · exact Or.inr h

theorem includes_singleton (s : Str) (c : Char) : includes s [c] = true ↔ c ∈ s := by
  rw [includes_iff]
  constructor
  · intro h
    exact h.subset (List.mem_singleton_self c)
  · intro h
    obtain ⟨a, b, rfl⟩ := List.append_of_mem h
    exact ⟨a, b, by simp⟩

theorem trim_within (s : Str) : trim s <:+: s := by
  unfold trim
  have h1 : ((s.dropWhile isWhiteSpace).reverse.dropWhile isWhiteSpace).reverse
      <+: s.dropWhile isWhiteSpace := by
    rw [← List.reverse_suffix, List.reverse_reverse]
    exact List.dropWhile_suffix _
  exact h1.isInfix.trans (List.dropWhile_suffix _).isInfix

theorem mem_split_within (sep : Char) (s line : Str) (h : line ∈ split sep s) : line <:+: s := by
  induction s generalizing line with
  | nil =>
    simp [split] at h
    subst h
    exact List.infix_refl _
  | cons c cs ih =>
    unfold split at h
    split_ifs at h with hc
    · rcases List.mem_cons.mp h with h | h
      · subst h
        exact List.nil_infix
      · exact (ih line h).trans (List.suffix_cons c cs).isInfix
    · obtain ⟨l, ls, hl⟩ := List.exists_cons_of_ne_nil (split_ne_nil sep cs)
      rw [hl] at h ih
      simp only [List.mem_cons] at h
      rcases h with h | h
      · subst h
        -- c :: l is a prefix of c :: cs because l is a prefix of cs
        have hp : l <+: cs := by
          have := join_split sep cs
          rw [hl] at this
          cases ls with
          | nil => simp [join] at this; subst this; exact List.prefix_refl _
          | cons l2 ls2 =>
            simp [join] at this
            exact ⟨_, this⟩
        exact ((List.prefix_cons_inj c).mpr hp).isInfix
      · exact (ih line (List.mem_cons_of_mem _ h)).trans (List.suffix_cons c cs).isInfix

theorem mem_split_no_sep (sep : Char) (s line : Str) (h : line ∈ split sep s) : sep ∉ line := by
  induction s generalizing line with
  | nil =>
    simp [split] at h
    subst h
    simp
  | cons c cs ih =>
    unfold split at h
    split_ifs at h with hc
    · rcases List.mem_cons.mp h with h | h
      · subst h; simp
      · exact ih line h
    · obtain ⟨l, ls, hl⟩ := List.exists_cons_of_ne_nil (split_ne_nil sep cs)
      rw [hl] at h ih
      simp only [List.mem_cons] at h
      rcases h with h | h
      · subst h
        have := ih l (List.mem_cons_self _ _)
        simp only [List.mem_cons, not_or]
        exact ⟨fun e => hc e.symm, this⟩
      · exact ih line (List.mem_cons_of_mem _ h)

theorem split_join (sep : Char) (ls : List Str) (hne : ls ≠ [])
    (h : ∀ l ∈ ls, sep ∉ l) : split sep (join sep ls) = ls := by
  induction ls with
  | nil => exact absurd rfl hne
  | cons l rest ih =>
    have hl : sep ∉ l := h l (List.mem_cons_self _ _)
    cases rest with
    | nil =>
      simp only [join]
      clear ih h hne
      induction l with
      | nil => simp [split]
      | cons c cs ihc =>
        simp only [List.mem_cons, not_or] at hl
        unfold split
        rw [if_neg (fun e => hl.1 e.symm), ihc hl.2]
    | cons l2 rest2 =>
      have ih2 := ih (by simp) (fun x hx => h x (List.mem_cons_of_mem _ hx))
      simp only [join]
      clear ih h hne
      induction l with
      | nil => simp [split, ih2]
      | cons c cs ihc =>
        simp only [List.mem_cons, not_or] at hl
        simp only [List.cons_append]
        unfold split
        rw [if_neg (fun e => hl.1 e.symm), ihc hl.2]

theorem replaceNewlines_no_newline (s : Str) : '\n' ∉ replaceNewlines s := by
  induction s with
  | nil => simp [replaceNewlines]
  | cons c cs ih =>
    unfold replaceNewlines
    split_ifs with h
    · simp only [List.mem_append, not_or]
      exact ⟨by decide, ih⟩
    · simp only [List.mem_cons, not_or]
      exact ⟨fun e => h e.symm, ih⟩

theorem replaceNewlines_of_no_newline (s : Str) (h : '\n' ∉ s) : replaceNewlines s = s := by
  induction s with
  | nil => simp [replaceNewlines]
  | cons c cs ih =>
    simp only [List.mem_cons, not_or] at h
    unfold replaceNewlines
    rw [if_neg (fun e => h.1 e.symm), ih h.2]

/-! ## Lemmas on the loop of `convertMarkdownTables` -/

theorem indexOf_found (lines : List Str) (k : Nat) (line : Str)
    (h : lines.get? k = some line) : ∃ j, indexOf lines line = some j ∧ j ≤ k := by
  induction lines generalizing k with
  | nil => simp at h
  | cons l ls ih =>
    unfold indexOf
    split_ifs with hl
    · exact ⟨0, rfl, Nat.zero_le _⟩
    · cases k with
      | zero =>
        simp at h
        exact absurd h hl
      | succ k =>
        simp at h
        obtain ⟨j, hj, hjk⟩ := ih k (by simpa using h)
        exact ⟨j + 1, by simp [hj], Nat.succ_le_succ hjk⟩

theorem headerCheck_ok (lines : List Str) (line : Str) :
    ∃ isHeader, headerCheck lines line = .ok isHeader ∧
      (isHeader = true → nextLineIndex lines line < lines.length) := by
  unfold headerCheck
  split_ifs with h
  · obtain ⟨nextLine, hn⟩ : ∃ x, lines.get? (nextLineIndex lines line) = some x :=
      ⟨_, List.get?_eq_get h⟩
    rw [hn]
    exact ⟨separatorTest nextLine, rfl, fun _ => h⟩
  · exact ⟨false, rfl, fun hf => absurd hf (by simp)⟩

theorem tableBody_ok (st : TableState) (line : Str) :
    ∃ st', tableBody st line = .ok st' ∧ st'.lines.length = st.lines.length ∧
      st'.pos = st.pos := by
  obtain ⟨isHeader, hh, hb⟩ := headerCheck_ok st.lines line
  unfold tableBody
  by_cases hrow : isTableRow line = true
  · simp only [hrow, if_true, hh]
    cases isHeader with
    | true =>
      have hlt := hb rfl
      simp [blankLine, hlt]
    | false => simp
  · simp only [hrow]
    by_cases hin : st.inTable = true
    · simp [hin]
    · simp [hin]

theorem tableLoop_ok (fuel : Nat) (st : TableState) (h : st.lines.length - st.pos ≤ fuel) :
    ∃ st', tableLoop fuel st = .ok st' ∧ st'.lines.length = st.lines.length := by
  induction fuel generalizing st with
  | zero =>
    unfold tableLoop
    have hge : st.lines.length ≤ st.pos := by omega
    rw [List.get?_eq_none.mpr hge]
    exact ⟨st, rfl, rfl⟩
  | succ fuel ih =>
    unfold tableLoop
    cases hg : st.lines.get? st.pos with
    | none => exact ⟨st, rfl, rfl⟩
    | some line =>
      obtain ⟨st', hb, hlen, hpos⟩ := tableBody_ok st line
      simp only [hb]
      obtain ⟨st'', hl, hlen'⟩ := ih { st' with pos := st'.pos + 1 } (by
        simp only [hlen, hpos]; omega)
      exact ⟨st'', hl, by simpa [hlen] using hlen'⟩

theorem tableBody_plain (st : TableState) (line : Str) (hrow : isTableRow line = false)
    (hin : st.inTable = false) :
    tableBody st line = .ok { st with result := st.result ++ [line] } := by
  unfold tableBody
  simp [hrow, hin]

theorem tableLoop_plain (fuel : Nat) (st : TableState)
    (hrows : ∀ l ∈ st.lines, isTableRow l = false) (hin : st.inTable = false)
    (h : st.lines.length - st.pos ≤ fuel) :
    ∃ st', tableLoop fuel st = .ok st' ∧ st'.inTable = false ∧
      st'.result = st.result ++ st.lines.drop st.pos := by
  induction fuel generalizing st with
  | zero =>
    unfold tableLoop
    have hge : st.lines.length ≤ st.pos := by omega
    rw [List.get?_eq_none.mpr hge]
    exact ⟨st, rfl, hin, by simp [List.drop_eq_nil_of_le hge]⟩
  | succ fuel ih =>
    unfold tableLoop
    cases hg : st.lines.get? st.pos with
    | none =>
      have hge : st.lines.length ≤ st.pos := List.get?_eq_none.mp hg
      exact ⟨st, rfl, hin, by simp [List.drop_eq_nil_of_le hge]⟩
    | some line =>
      have hmem : line ∈ st.lines := List.get?_mem hg
      simp only [tableBody_plain st line (hrows line hmem) hin]
      obtain ⟨st'', hl, hin', hres⟩ :=
        ih { st with result := st.result ++ [line], pos := st.pos + 1 } hrows hin (by
          simp only; omega)
      refine ⟨st'', hl, hin', ?_⟩
      rw [hres]
      have hlt : st.pos < st.lines.length := by
        by_contra hc
        rw [List.get?_eq_none.mpr (Nat.le_of_not_lt hc)] at hg
        exact absurd hg (by simp)
      have hd : st.lines.drop st.pos = line :: st.lines.drop (st.pos + 1) := by
        rw [List.drop_eq_getElem_cons hlt]
        congr 1
        rw [List.get?_eq_getElem?, List.getElem?_eq_getElem hlt] at hg
        exact Option.some.inj hg
      simp [hd]

/-! ## Lemmas on the loop of `convertMarkdownLists` -/

/-- The blocks `listFinish` joins. -/
theorem listFinish_eq (st : ListState) :
    listFinish st =
      join '\n' (if st.inList then st.result ++ [st.listHTML ++ "</ul>".toList] else st.result) :=
  rfl

theorem specLists_cons_list (line : Str) (rest : List Str) (h : isListLine line = true) :
    specLists (line :: rest) =
      specListBlock (line :: rest.takeWhile isListLine) ::
        specLists (rest.dropWhile isListLine) := by
  rw [specLists]
  unfold isListLine at h
  rw [if_pos h]

theorem specLists_cons_plain (line : Str) (rest : List Str) (h : isListLine line = false) :
    specLists (line :: rest) = line :: specLists rest := by
  rw [specLists]
  unfold isListLine at h
  rw [if_neg (by rw [h]; decide)]

theorem foldl_listBody (lines : List Str) (st : ListState) :
    (fun st' : ListState =>
        if st'.inList then st'.result ++ [st'.listHTML ++ "</ul>".toList] else st'.result)
      (lines.foldl listBody st) =
      if st.inList then
        st.result ++
          (st.listHTML ++
            (lines.takeWhile isListLine).flatMap
              (fun line => "<li>".toList ++ (trim line).drop 2 ++ "</li>".toList) ++
            "</ul>".toList) ::
          specLists (lines.dropWhile isListLine)
      else st.result ++ specLists lines := by
  induction lines generalizing st with
  | nil =>
    cases hin : st.inList <;> simp [hin, specLists]
  | cons line rest ih =>
    rw [List.foldl_cons, ih]
    by_cases hl : isListLine line = true
    · cases hin : st.inList
      · simp [listBody, hl, hin, specLists_cons_list, specListBlock, listContent,
          List.takeWhile_cons, List.dropWhile_cons]
      · simp [listBody, hl, hin, listContent, List.takeWhile_cons, List.dropWhile_cons]
    · have hl' : isListLine line = false := by simpa using hl
      cases hin : st.inList
      · simp [listBody, hl', hin, specLists_cons_plain]
      · simp [listBody, hl', hin, specLists_cons_plain, List.takeWhile_cons,
          List.dropWhile_cons]

theorem isListLine_includes (line : Str) (h : isListLine line = true) :
    "- ".toList <:+: line ∨ "* ".toList <:+: line := by
  unfold isListLine at h
  rw [Bool.or_eq_true, startsWith_iff, startsWith_iff] at h
  rcases h with h | h
  · exact Or.inl (h.isInfix.trans (trim_within line))
  · exact Or.inr (h.isInfix.trans (trim_within line))

theorem specLists_plain (lines : List Str) (h : ∀ l ∈ lines, isListLine l = false) :
    specLists lines = lines := by
  induction lines with
  | nil => simp [specLists]
  | cons line rest ih =>
    rw [specLists_cons_plain line rest (h line (List.mem_cons_self _ _)),
      ih (fun l hl => h l (List.mem_cons_of_mem _ hl))]

theorem specLists_run (run : List Str) (hne : run ≠ [])
    (h : ∀ l ∈ run, isListLine l = true) : specLists run = [specListBlock run] := by
  cases run with
  | nil => exact absurd rfl hne
  | cons line rest =>
    have hrest : ∀ l ∈ rest, isListLine l = true := fun l hl => h l (List.mem_cons_of_mem _ hl)
    rw [specLists_cons_list line rest (h line (List.mem_cons_self _ _)),
      List.takeWhile_eq_self_iff.mpr hrest, List.dropWhile_eq_nil_iff.mpr hrest]
    simp [specLists]

theorem convertMarkdownLists_eq_spec (text : Str) :
    convertMarkdownLists text = join '\n' (specLists (split '\n' text)) := by
  unfold convertMarkdownLists
  split_ifs with h
  · have hplain : ∀ l ∈ split '\n' text, isListLine l = false := by
      intro l hl
      by_contra hc
      have hlist : isListLine l = true := by simpa using hc
      have hinf := mem_split_within '\n' text l hl
      simp only [Bool.and_eq_true, Bool.not_eq_true', ← Bool.not_eq_true, includes_iff] at h
      rcases isListLine_includes l hlist with hd | hs
      · exact h.1 (hd.trans hinf)
      · exact h.2 (hs.trans hinf)
    rw [specLists_plain _ hplain, join_split]
  · rw [listFinish_eq]
    have := foldl_listBody (split '\n' text) listInit
    simp only [listInit] at this ⊢
    rw [this]
    simp

/-! ## Lemmas on the stock selection -/

theorem symbols_handleStockItemClick (st : AppState) (k : Nat) :
    (handleStockItemClick st k).stockList.map StockItem.symbol =
      st.stockList.map StockItem.symbol := by
  unfold handleStockItemClick
  cases hg : st.stockList.get? k with
  | none => rfl
  | some stockItem =>
    have hk : k < st.stockList.length := by
      by_contra hc
      rw [List.get?_eq_none.mpr (Nat.le_of_not_lt hc)] at hg
      exact absurd hg (by simp)
    have hsym : (st.stockList.map StockItem.symbol)[k]? = some stockItem.symbol := by
      rw [List.getElem?_map, ← List.get?_eq_getElem?, hg]
      rfl
    have hset : ∀ b : Bool,
        (st.stockList.set k { stockItem with selected := b }).map StockItem.symbol =
          st.stockList.map StockItem.symbol := by
      intro b
      rw [List.map_set]
      apply List.ext_getElem?
      intro n
      rw [List.getElem?_set]
      split_ifs with h1 h2
      · subst h1; exact hsym.symm
      · subst h1; simp at h2; omega
      · rfl
    simp only
    split_ifs
    · exact hset false
    · exact hset true

theorem symbols_handleEvent (st : AppState) (e : UiEvent) :
    (handleEvent st e).stockList.map StockItem.symbol = st.stockList.map StockItem.symbol := by
  cases e with
  | click k => exact symbols_handleStockItemClick st k
  | clear => simp [handleEvent, clearSelection, clearStockSelection]

theorem symbol_ne_of_nodup (items : List StockItem)
    (hnd : (items.map StockItem.symbol).Nodup) (j k : Nat) (a b : StockItem)
    (ha : items.get? j = some a) (hb : items.get? k = some b) (hjk : j ≠ k) :
    a.symbol ≠ b.symbol := by
  intro heq
  have hj : (items.map StockItem.symbol)[j]? = some a.symbol := by
    rw [List.getElem?_map, ← List.get?_eq_getElem?, ha]; rfl
  have hk : (items.map StockItem.symbol)[k]? = some b.symbol := by
    rw [List.getElem?_map, ← List.get?_eq_getElem?, hb]; rfl
  have hjlt : j < (items.map StockItem.symbol).length := by
    by_contra hc
    rw [List.getElem?_eq_none (Nat.le_of_not_lt hc)] at hj
    exact absurd hj (by simp)
  have hklt : k < (items.map StockItem.symbol).length := by
    by_contra hc
    rw [List.getElem?_eq_none (Nat.le_of_not_lt hc)] at hk
    exact absurd hk (by simp)
  rw [List.getElem?_eq_getElem hjlt] at hj
  rw [List.getElem?_eq_getElem hklt] at hk
  have h1 := Option.some.inj hj
  have h2 := Option.some.inj hk
  exact hjk ((List.Nodup.getElem_inj_iff hnd).mp (by rw [h1, h2, heq]))

theorem inv_handleStockItemClick (st : AppState) (k : Nat)
    (hnd : (st.stockList.map StockItem.symbol).Nodup) (hinv : SelectionInv st) :
    SelectionInv (handleStockItemClick st k) := by
  obtain ⟨hsel, hun⟩ := hinv
  unfold handleStockItemClick
  cases hg : st.stockList.get? k with
  | none => exact ⟨hsel, hun⟩
  | some stockItem =>
    simp only
    by_cases hs : stockItem.selected = true
    · rw [if_pos hs]
      refine ⟨hsel.filter _, ?_⟩
      intro j item hj hitem
      simp only
      rw [List.get?_eq_getElem?, List.getElem?_set] at hj
      split_ifs at hj with h1 h2
      · have := Option.some.inj hj
        subst this
        simp
      · rw [← List.get?_eq_getElem?] at hj
        intro hmem
        exact hun j item hj hitem (List.mem_of_mem_filter hmem)
    · rw [if_neg hs]
      have hs' : stockItem.selected = false := by simpa using hs
      have hnot : stockItem.symbol ∉ st.selectedStocks := hun k stockItem hg hs'
      refine ⟨?_, ?_⟩
      · simp only
        rw [List.nodup_append]
        refine ⟨hsel, List.nodup_singleton _, ?_⟩
        intro a ha hb
        rw [List.mem_singleton] at hb
        subst hb
        exact hnot ha
      · intro j item hj hitem
        simp only
        rw [List.get?_eq_getElem?, List.getElem?_set] at hj
        split_ifs at hj with h1 h2
        · have := Option.some.inj hj
          subst this
          simp at hitem
        · rw [← List.get?_eq_getElem?] at hj
          rw [List.mem_append, List.mem_singleton, not_or]
          exact ⟨hun j item hj hitem,
            symbol_ne_of_nodup st.stockList hnd j k item stockItem hj hg (Ne.symm h1)⟩

theorem inv_handleEvent (st : AppState) (e : UiEvent)
    (hnd : (st.stockList.map StockItem.symbol).Nodup) (hinv : SelectionInv st) :
    SelectionInv (handleEvent st e) := by
  cases e with
  | click k => exact inv_handleStockItemClick st k hnd hinv
  | clear =>
    refine ⟨List.nodup_nil, ?_⟩
    intro j item _ _
    simp [handleEvent, clearSelection]

theorem inv_foldl (events : List UiEvent) (st : AppState)
    (hnd : (st.stockList.map StockItem.symbol).Nodup) (hinv : SelectionInv st) :
    SelectionInv (events.foldl handleEvent st) := by
  induction events generalizing st with
  | nil => exact hinv
  | cons e es ih =>
    rw [List.foldl_cons]
    exact ih (handleEvent st e) (by rw [symbols_handleEvent]; exact hnd)
      (inv_handleEvent st e hnd hinv)

theorem inv_initialState (stocks : List Stock) : SelectionInv (initialState stocks) := by
  refine ⟨List.nodup_nil, ?_⟩
  intro j item _ _
  simp [initialState]

theorem symbols_initialState (stocks : List Stock) :
    (initialState stocks).stockList.map StockItem.symbol = stocks.map Stock.symbol := by
  simp [initialState, createStockList, Function.comp_def]

/-! ## Lemmas on the reachable states of the table loop -/

theorem reach_length (text : Str) (st : TableState) (h : TableReach text st) :
    st.lines.length = (split '\n' text).length := by
  induction h with
  | start => rfl
  | next st st' line _ _ hb ih =>
    obtain ⟨st2, hb2, hlen, _⟩ := tableBody_ok st line
    rw [hb] at hb2
    cases hb2
    simpa [hlen] using ih

theorem reach_plain (text : Str) (hrows : ∀ line ∈ split '\n' text, isTableRow line = false)
    (st : TableState) (h : TableReach text st) :
    st.inTable = false ∧ st.lines = split '\n' text := by
  induction h with
  | start => exact ⟨rfl, rfl⟩
  | next st st' line _ hg hb ih =>
    have hmem : line ∈ split '\n' text := by
      rw [← ih.2]
      exact List.get?_mem hg
    rw [tableBody_plain st line (hrows line hmem) ih.1] at hb
    cases hb
    exact ih

theorem tableLoop_reach (text : Str) (fuel : Nat) (st st' : TableState)
    (hst : TableReach text st) (h : tableLoop fuel st = .ok st') : TableReach text st' := by
  induction fuel generalizing st with
  | zero =>
    unfold tableLoop at h
    cases hg : st.lines.get? st.pos with
    | none =>
      rw [hg] at h
      cases h
      exact hst
    | some line =>
      rw [hg] at h
      cases h
  | succ fuel ih =>
    unfold tableLoop at h
    cases hg : st.lines.get? st.pos with
    | none =>
      rw [hg] at h
      cases h
      exact hst
    | some line =>
      rw [hg] at h
      simp only at h
      cases hb : tableBody st line with
      | error e =>
        rw [hb] at h
        cases h
      | ok st2 =>
        rw [hb] at h
        exact ih _ (TableReach.next st st2 line hst hg hb) h

/-! ## Lemmas on the header look-ahead -/

theorem indexOf_get (lines : List Str) (line : Str) (f : Nat)
    (h : indexOf lines line = some f) : lines.get? f = some line := by
  induction lines generalizing f with
  | nil => simp [indexOf] at h
  | cons l ls ih =>
    unfold indexOf at h
    split_ifs at h with hl
    · cases h
      simp [hl]
    · cases hi : indexOf ls line with
      | none => rw [hi] at h; cases h
      | some k =>
        rw [hi] at h
        cases h
        simpa using ih k hi

theorem indexOf_set (lines : List Str) (line v : Str) (f k : Nat)
    (h : indexOf lines line = some f) (hfk : f < k) :
    indexOf (lines.set k v) line = some f := by
  induction lines generalizing f k with
  | nil => simp [indexOf] at h
  | cons l ls ih =>
    cases k with
    | zero => omega
    | succ k =>
      rw [List.set_cons_succ]
      unfold indexOf at h ⊢
      split_ifs at h ⊢ with hl
      · exact h
      · cases hi : indexOf ls line with
        | none => rw [hi] at h; cases h
        | some j =>
          rw [hi] at h
          cases h
          rw [ih j k hi (by omega)]

theorem separatorTest_nil : separatorTest [] = false := by
  rfl

theorem headerCheck_set_blank (lines : List Str) (l : Str) (i : Nat)
    (h : indexOf lines l = some i) : headerCheck (lines.set (i + 1) []) l = .ok false := by
  have hidx : nextLineIndex (lines.set (i + 1) []) l = i + 1 := by
    unfold nextLineIndex
    rw [indexOf_set lines l [] i (i + 1) h (Nat.lt_succ_self i)]
  unfold headerCheck
  rw [hidx]
  split_ifs with hlt
  · rw [List.length_set] at hlt
    rw [List.get?_eq_getElem?, List.getElem?_set_self hlt]
    simp only [separatorTest_nil]
  · rfl

theorem headerCheck_set_later (lines : List Str) (l v : Str) (f k : Nat)
    (h : indexOf lines l = some f) (hfk : f + 1 < k) :
    headerCheck (lines.set k v) l = headerCheck lines l := by
  have hidx : nextLineIndex (lines.set k v) l = f + 1 := by
    unfold nextLineIndex
    rw [indexOf_set lines l v f k h (by omega)]
  have hidx' : nextLineIndex lines l = f + 1 := by
    unfold nextLineIndex
    rw [h]
  unfold headerCheck
  rw [hidx, hidx', List.length_set, List.get?_eq_getElem?, List.get?_eq_getElem?,
    List.getElem?_set_ne (by omega)]

theorem tableBody_lines (st st' : TableState) (line : Str)
    (hb : tableBody st line = .ok st') :
    st'.pos = st.pos ∧
      ((isTableRow line = true ∧ headerCheck st.lines line = .ok true ∧
          st'.lines = st.lines.set (nextLineIndex st.lines line) []) ∨
        ((isTableRow line = false ∨ headerCheck st.lines line = .ok false) ∧
          st'.lines = st.lines)) := by
  obtain ⟨isHeader, hh, hlt⟩ := headerCheck_ok st.lines line
  unfold tableBody at hb
  by_cases hrow : isTableRow line = true
  · simp only [hrow, if_true, hh] at hb
    cases isHeader with
    | true =>
      simp only [blankLine, hlt rfl, if_true] at hb
      cases hb
      exact ⟨rfl, Or.inl ⟨hrow, hh, rfl⟩⟩
    | false =>
      simp only [Bool.false_eq_true, if_false] at hb
      cases hb
      exact ⟨rfl, Or.inr ⟨Or.inr hh, rfl⟩⟩
  · have hrow' : isTableRow line = false := by simpa using hrow
    simp only [hrow] at hb
    by_cases hin : st.inTable = true
    · simp only [hin, if_true, if_false] at hb
      cases hb
      exact ⟨rfl, Or.inr ⟨Or.inl hrow', rfl⟩⟩
    · simp only [hin, if_false] at hb
      cases hb
      exact ⟨rfl, Or.inr ⟨Or.inl hrow', rfl⟩⟩

theorem header_index_of_inv (st : TableState) (line : Str)
    (hinv : ∀ j l, j < st.pos → st.lines.get? j = some l → isTableRow l = true →
      headerCheck st.lines l = .ok false)
    (hg : st.lines.get? st.pos = some line) (hrow : isTableRow line = true)
    (hh : headerCheck st.lines line = .ok true) : indexOf st.lines line = some st.pos := by
  obtain ⟨f, hf, hle⟩ := indexOf_found st.lines st.pos line hg
  rcases Nat.lt_or_eq_of_le hle with hlt | heq
  · have := hinv f line hlt (indexOf_get st.lines line f hf) hrow
    rw [hh] at this
    cases this
  · rw [hf, heq]

theorem reach_header_inv (text : Str) (st : TableState) (h : TableReach text st) :
    ∀ j l, j < st.pos → st.lines.get? j = some l → isTableRow l = true →
      headerCheck st.lines l = .ok false := by
  induction h with
  | start =>
    intro j l hj
    simp [tableInit] at hj
  | next st st' line _ hg hb ih =>
    intro j l hj hl hrow
    obtain ⟨hpos, hcase⟩ := tableBody_lines st st' line hb
    simp only [hpos] at hj hl ⊢
    rcases hcase with ⟨hlrow, hh, hset⟩ | ⟨hno, hsame⟩
    · have hidx : indexOf st.lines line = some st.pos :=
        header_index_of_inv st line ih hg hlrow hh
      have hnext : nextLineIndex st.lines line = st.pos + 1 := by
        unfold nextLineIndex
        rw [hidx]
      rw [hset, hnext] at hl ⊢
      rw [List.get?_eq_getElem?, List.getElem?_set_ne (by omega),
        ← List.get?_eq_getElem?] at hl
      obtain ⟨f, hf, hfj⟩ := indexOf_found st.lines j l hl
      by_cases hfp : f = st.pos
      · subst hfp
        exact headerCheck_set_blank st.lines l _ hf
      · rw [headerCheck_set_later st.lines l [] f (st.pos + 1) hf (by omega)]
        by_cases hjp : j = st.pos
        · subst hjp
          rw [hg] at hl
          cases hl
          rw [hidx] at hf
          cases hf
          exact absurd rfl hfp
        · exact ih j l (by omega) hl hrow
    · rw [hsame] at hl ⊢
      by_cases hjp : j = st.pos
      · subst hjp
        rw [hg] at hl
        cases hl
        rcases hno with hno | hno
        · rw [hrow] at hno
          cases hno
        · exact hno
      · exact ih j l (by omega) hl hrow

/-! ## Lemmas on texts without markers -/

theorem convertMarkdownTables_of_no_pipe (text : Str) (hp : '|' ∉ text) :
    convertMarkdownTables text = .ok text := by
  have h1 : includes text ['|'] = false := by
    rw [← Bool.not_eq_true, includes_singleton]; exact hp
  unfold convertMarkdownTables
  rw [h1]
  rfl

theorem convertMarkdownLists_of_no_marker (text : Str) (hd : ¬ "- ".toList <:+: text)
    (hs : ¬ "* ".toList <:+: text) : convertMarkdownLists text = text := by
  have h2 : includes text "- ".toList = false := by
    rw [← Bool.not_eq_true, includes_iff]; exact hd
  have h3 : includes text "* ".toList = false := by
    rw [← Bool.not_eq_true, includes_iff]; exact hs
  unfold convertMarkdownLists
  rw [h2, h3]
  rfl

/-! ## The claims -/

/-- C1, a defect of the code: on the table `|A|B|` / `|-|-|` / `|1|2|` the header row is
rendered with `<td>` cells, the separator row is rendered as a row of `<th>` cells and the
data row is lost, because the separator test rejects the line `|-|-|` (and every line holding
a dash) and accepts the line `|1|2|`. -/
theorem convertMarkdownTables_header_table :
    convertMarkdownTables "|A|B|\n|-|-|\n|1|2|".toList =
        .ok "<table><tr><td>A</td><td>B</td></tr><tr><th>-</th><th>-</th></tr></table>".toList ∧
      separatorTest "|-|-|".toList = false ∧
      separatorTest "|1|2|".toList = true :=
  ⟨by rfl, by rfl, by rfl⟩

/-- C2, a defect of the code: three consecutive table rows `|A|` / `|B|` / `|C|`, none of
them a separator row, come out as two table blocks on two lines holding two rows in all. -/
theorem convertMarkdownTables_three_rows :
    convertMarkdownTables "|A|\n|B|\n|C|".toList =
      .ok "<table><tr><th>A</th></tr></table>\n<table><tr><td>C</td></tr></table>".toList :=
  by rfl

/-- C3, a defect of the code: for the table row `|a|` followed by the plain line `hello` the
output is the table block alone; the plain line that ends the table is lost. -/
theorem convertMarkdownTables_row_then_plain :
    convertMarkdownTables "|a|\nhello".toList =
      .ok "<table><tr><td>a</td></tr></table>".toList :=
  by rfl

/-- C4: `convertMarkdownLists` replaces every maximal run of list lines by its list block and
keeps every other line, the lines joined by newlines; a run of one or more list lines alone
gives its single list block; and `"- a\n- b\n"` gives `"<ul><li>a</li><li>b</li></ul>\n"`. -/
theorem convertMarkdownLists_spec :
    (∀ text : Str, convertMarkdownLists text = join '\n' (specLists (split '\n' text))) ∧
      (∀ run : List Str, run ≠ [] → (∀ l ∈ run, isListLine l = true ∧ '\n' ∉ l) →
        convertMarkdownLists (join '\n' run) = specListBlock run) ∧
      convertMarkdownLists "- a\n- b\n".toList = "<ul><li>a</li><li>b</li></ul>\n".toList := by
  refine ⟨convertMarkdownLists_eq_spec, ?_, by decide⟩
  intro run hne hrun
  rw [convertMarkdownLists_eq_spec, split_join '\n' run hne (fun l hl => (hrun l hl).2),
    specLists_run run hne (fun l hl => (hrun l hl).1)]
  rfl

/-- C5: when no line of the text, after trimming, both starts and ends with a pipe,
`convertMarkdownTables` returns the text unchanged and no state of its loop has a table
open. -/
theorem convertMarkdownTables_no_rows (text : Str)
    (h : ∀ line ∈ split '\n' text, isTableRow line = false) :
    convertMarkdownTables text = .ok text ∧
      ∀ st, TableReach text st → st.inTable = false := by
  refine ⟨?_, fun st hst => (reach_plain text h st hst).1⟩
  unfold convertMarkdownTables
  split_ifs with hp
  · rfl
  · obtain ⟨st', hl, hin, hres⟩ :=
      tableLoop_plain (split '\n' text).length (tableInit text) h rfl (by simp [tableInit])
    rw [hl]
    simp only [tableFinish, hin, hres, tableInit]
    simp [join_split]

/-- Witness for C5: a text with a pipe inside its first line. -/
theorem convertMarkdownTables_no_rows_witness :
    (∀ line ∈ split '\n' "a | b\nc".toList, isTableRow line = false) ∧
      convertMarkdownTables "a | b\nc".toList = .ok "a | b\nc".toList :=
  ⟨by decide, (convertMarkdownTables_no_rows "a | b\nc".toList (by decide)).1⟩

/-- C6: for a text without a pipe, without `"- "` and without `"* "`, the HTML of an assistant
message is the text with every newline replaced by `<br>`. -/
theorem addMessage_plain (text : Str) (hp : '|' ∉ text) (hd : ¬ "- ".toList <:+: text)
    (hs : ¬ "* ".toList <:+: text) :
    addMessage text false = .ok (replaceNewlines text) := by
  unfold addMessage
  rw [convertMarkdownTables_of_no_pipe text hp]
  simp only [Bool.not_false, if_true]
  rw [convertMarkdownLists_of_no_marker text hd hs]

/-- Witness for C6: a two-line text, and the empty text, which gives the empty output. -/
theorem addMessage_plain_witness :
    addMessage "a\nb".toList false = .ok "a<br>b".toList ∧ addMessage [] false = .ok [] :=
  ⟨addMessage_plain "a\nb".toList (by decide) (by decide) (by decide),
    addMessage_plain [] (by decide) (by decide) (by decide)⟩

/-- C7: for a user message the HTML is the text unchanged. -/
theorem addMessage_user (text : Str) : addMessage text true = .ok text :=
  rfl

/-- C8: when the rendering `r` of an assistant message holds no pipe, no `"- "` and no `"* "`,
rendering `r` again returns `r`. -/
theorem addMessage_idempotent (t r : Str) (h : addMessage t false = .ok r)
    (hp : '|' ∉ r) (hd : ¬ "- ".toList <:+: r) (hs : ¬ "* ".toList <:+: r) :
    addMessage r false = .ok r := by
  have hnl : '\n' ∉ r := by
    unfold addMessage at h
    simp only [Bool.not_false, if_true] at h
    cases hc : convertMarkdownTables t with
    | error e => rw [hc] at h; cases h
    | ok tables =>
      rw [hc] at h
      cases h
      exact replaceNewlines_no_newline _
  unfold addMessage
  rw [convertMarkdownTables_of_no_pipe r hp]
  simp only [Bool.not_false, if_true]
  rw [convertMarkdownLists_of_no_marker r hd hs, replaceNewlines_of_no_newline r hnl]

/-- Witness for C8: the rendering `a<br>b` of the text `a`, newline, `b`. -/
theorem addMessage_idempotent_witness :
    addMessage "a\nb".toList false = .ok "a<br>b".toList ∧
      addMessage "a<br>b".toList false = .ok "a<br>b".toList :=
  ⟨by rfl, addMessage_idempotent "a\nb".toList "a<br>b".toList (by rfl) (by decide)
    (by decide) (by decide)⟩

/-- C9: both conversions return an output for every input.  In every state the loop of
`convertMarkdownTables` passes through the line array has the length it started with, and for
the line under the iterator `indexOf` finds an index, the look-ahead reads inside the array,
a header is only found with the next index inside the array, and the body ends without a
fault and leaves the length of the array as it was. -/
theorem convertMarkdown_never_fails (text : Str) :
    (∃ out, convertMarkdownTables text = .ok out) ∧
      (∃ out, convertMarkdownLists text = out) ∧
      ∀ st, TableReach text st →
        st.lines.length = (split '\n' text).length ∧
        ∀ line, st.lines.get? st.pos = some line →
          (∃ j, indexOf st.lines line = some j ∧ j ≤ st.pos) ∧
          (∃ isHeader, headerCheck st.lines line = .ok isHeader ∧
            (isHeader = true → nextLineIndex st.lines line < st.lines.length)) ∧
          ∃ st', tableBody st line = .ok st' ∧ st'.lines.length = st.lines.length := by
  refine ⟨?_, ⟨_, rfl⟩, ?_⟩
  · unfold convertMarkdownTables
    split_ifs
    · exact ⟨_, rfl⟩
    · obtain ⟨st', hl, _⟩ :=
        tableLoop_ok (split '\n' text).length (tableInit text) (by simp [tableInit])
      rw [hl]
      exact ⟨_, rfl⟩
  · intro st hst
    refine ⟨reach_length text st hst, ?_⟩
    intro line hline
    refine ⟨indexOf_found st.lines st.pos line hline, headerCheck_ok st.lines line, ?_⟩
    obtain ⟨st', hb, hlen, _⟩ := tableBody_ok st line
    exact ⟨st', hb, hlen⟩

/-- C10 as stated fails: with two stock items of the same symbol, a click on each puts the
symbol into the selection twice. -/
theorem selectedStocks_duplicate :
    ¬ (runEvents [⟨"AAPL".toList, "Apple".toList⟩, ⟨"AAPL".toList, "Apple Inc".toList⟩]
        [.click 0, .click 1]).selectedStocks.Nodup := by
  decide

/-- C10, amended: for stock items with pairwise distinct symbols, after every sequence of
clicks and clears starting from the empty selection, the selection holds no symbol twice. -/
theorem selectedStocks_nodup (stocks : List Stock) (events : List UiEvent)
    (h : (stocks.map Stock.symbol).Nodup) :
    (runEvents stocks events).selectedStocks.Nodup :=
  (inv_foldl events (initialState stocks) (by rw [symbols_initialState]; exact h)
    (inv_initialState stocks)).1

/-- Witness for C10: two stocks, both clicked, the first clicked again, a clear, a click. -/
theorem selectedStocks_nodup_witness :
    (runEvents [⟨"AAPL".toList, "Apple".toList⟩, ⟨"MSFT".toList, "Microsoft".toList⟩]
      [.click 0, .click 1, .click 0, .clear, .click 1]).selectedStocks.Nodup :=
  selectedStocks_nodup _ _ (by decide)

/-- C11: in every state the loop of `convertMarkdownTables` passes through, for the table row
under the iterator: when the row is classified as a header, `indexOf` answers the position of
the iterator, so the next index is the position after it and the blanking write lands there,
never on the current or an earlier line; and when an earlier position of the array holds the
same line, the row is not classified as a header and is rendered with `<td>` cells. -/
theorem header_row_index (text : Str) (st : TableState) (hst : TableReach text st)
    (line : Str) (hline : st.lines.get? st.pos = some line) (hrow : isTableRow line = true) :
    (headerCheck st.lines line = .ok true →
        indexOf st.lines line = some st.pos ∧
        nextLineIndex st.lines line = st.pos + 1 ∧
        blankLine st.lines (nextLineIndex st.lines line) =
          .ok (st.lines.set (st.pos + 1) [])) ∧
      (∀ j, j < st.pos → st.lines.get? j = some line →
        headerCheck st.lines line = .ok false ∧
        tableBody st line =
          .ok { st with
                inTable := true,
                tableHTML := (if !st.inTable then "<table>".toList else st.tableHTML) ++
                  rowHTML line false }) := by
  have hinv := reach_header_inv text st hst
  constructor
  · intro hh
    have hidx := header_index_of_inv st line hinv hline hrow hh
    have hnext : nextLineIndex st.lines line = st.pos + 1 := by
      unfold nextLineIndex
      rw [hidx]
    obtain ⟨isHeader, hh', hlt⟩ := headerCheck_ok st.lines line
    rw [hh] at hh'
    cases hh'
    have hlt' := hlt rfl
    refine ⟨hidx, hnext, ?_⟩
    unfold blankLine
    rw [if_pos hlt', hnext]
  · intro j hj hjl
    have hh := hinv j line hj hjl hrow
    refine ⟨hh, ?_⟩
    unfold tableBody
    simp only [hrow, if_true, hh, Bool.false_eq_true, if_false]

/-- Witness for C11: in `|A|` / `|B|` the first row is a header found at its own index `0` and
the write lands on index `1`; in `|A|` / `x` / `|A|` / `|B|` the row at index `2` equals the
line at index `0`, so the look-ahead reads `x` and the row is not a header. -/
theorem header_row_index_witness :
    (indexOf ["|A|".toList, "|B|".toList] "|A|".toList = some 0 ∧
        nextLineIndex ["|A|".toList, "|B|".toList] "|A|".toList = 1 ∧
        blankLine ["|A|".toList, "|B|".toList] 1 = .ok ["|A|".toList, []]) ∧
      headerCheck ["|A|".toList, "x".toList, "|A|".toList, "|B|".toList] "|A|".toList =
        .ok false :=
  ⟨(header_row_index "|A|\n|B|".toList (tableInit "|A|\n|B|".toList) TableReach.start
      "|A|".toList (by rfl) (by rfl)).1 (by rfl),
    ((header_row_index "|A|\nx\n|A|\n|B|".toList _
      (TableReach.next _ _ "x".toList
        (TableReach.next (tableInit "|A|\nx\n|A|\n|B|".toList) _ "|A|".toList
          TableReach.start (by rfl) (by rfl))
        (by rfl) (by rfl))
      "|A|".toList (by rfl) (by rfl)).2 0 (by decide) (by rfl)).1⟩

end Finnn
